import Mathlib

/-
Verification of the localcloud media-server core against its specification.

Go strings are modelled as lists of characters (`GoStr`); Go byte slices as
`List Nat`; the SQLite `media` / `files` tables as Lean lists of records held
in recency order (descending `uploaded_at`), so that a SQL
`ORDER BY uploaded_at DESC LIMIT n` is `List.take n`; the filesystem as an
association list from paths to contents plus a set of directory paths.
External collaborators (the Go regexp engine, crypto/sha256, goexif) are
parameters of the model functions.  All path functions follow
`path/filepath` for the unix separator.
-/

/-- Go strings, modelled as lists of characters. -/
abbrev GoStr := List Char

/-- Embed a Lean string literal as a `GoStr`. -/
def strL (s : String) : GoStr := s.data

/-- Model of `strings.HasPrefix s pre`. -/
def hasPre (s pre : GoStr) : Bool := pre.isPrefixOf s

/-- Model of `strings.TrimPrefix s pre`. -/
def trimPre (s pre : GoStr) : GoStr :=
  if pre.isPrefixOf s then s.drop pre.length else s

/-- Model of `strings.Split s (String.singleton c)`: split around every
occurrence of the character `c`, keeping empty parts. -/
def splitCh (c : Char) : GoStr → List GoStr
  | [] => [[]]
  | x :: xs =>
    match splitCh c xs with
    | [] => [[]]
    | y :: ys => if x = c then [] :: y :: ys else (x :: y) :: ys

/-- ASCII lower-casing, modelling SQLite `lower()` and `strings.ToLower`
on the ASCII data handled by the server. -/
def asciiLower (s : GoStr) : GoStr :=
  s.map (fun c => if 'A' ≤ c ∧ c ≤ 'Z' then Char.ofNat (c.toNat + 32) else c)

/-- Substring occurrence test (`strings.Contains` / SQL `LIKE '%t%'` on a
wildcard-free `t`). -/
def subOccurs (needle : GoStr) : GoStr → Bool
  | [] => needle.isPrefixOf []
  | c :: rest => needle.isPrefixOf (c :: rest) || subOccurs needle rest

/-- Case-insensitive substring test: SQLite `x LIKE '%t%'` (default
case-insensitive `LIKE`) and `lower(x) LIKE lower('%t%')` for a pattern `t`
free of `LIKE` wildcards. -/
def containsCI (hay needle : GoStr) : Bool :=
  subOccurs (asciiLower needle) (asciiLower hay)

/-- Case-insensitive prefix test: `lower(x) LIKE lower('t%')` for a
wildcard-free `t`. -/
def startsCI (hay needle : GoStr) : Bool :=
  (asciiLower needle).isPrefixOf (asciiLower hay)

/-- One decimal digit as a character. -/
def digCh (d : Nat) : Char := Char.ofNat (48 + d)

/-- Digit test on a character (ASCII '0'..'9'). -/
def isDigitCh (c : Char) : Bool := decide (48 ≤ c.toNat ∧ c.toNat ≤ 57)

/-- Accumulator loop of the decimal printer. -/
def natToDecAux : Nat → GoStr → GoStr
  | n, acc =>
    if _h : n < 10 then digCh (n % 10) :: acc
    else natToDecAux (n / 10) (digCh (n % 10) :: acc)
termination_by n _ => n
decreasing_by exact Nat.div_lt_self (by omega) (by omega)

/-- Decimal representation of a natural number, as printed by Go's
`strconv`/`fmt` for non-negative values. -/
def natToDec (n : Nat) : GoStr := natToDecAux n []

/-- Numeric value of a digit string. -/
def digitsVal (l : GoStr) : Nat := l.foldl (fun a c => a * 10 + (c.toNat - 48)) 0

/-- Model of `strconv.ParseInt(s, 10, 64)`: optional sign, decimal digits,
and a signed-64-bit range check (Go returns `ErrRange` outside it). -/
def parseIntDec (s : GoStr) : Except Unit Int :=
  match s with
  | [] => .error ()
  | c :: rest =>
    let p : Bool × GoStr :=
      if c = '+' then (false, rest) else if c = '-' then (true, rest) else (false, s)
    if p.2 = [] then .error ()
    else if ¬ p.2.all isDigitCh then .error ()
    else
      let v : Nat := digitsVal p.2
      if p.1 then
        if v ≤ 2 ^ 63 then .ok (-(v : Int)) else .error ()
      else
        if v ≤ 2 ^ 63 - 1 then .ok (v : Int) else .error ()

/-- Model of Go's `fmt` `%d` on an `int64`. -/
def intToDec (n : Int) : GoStr :=
  if n < 0 then '-' :: natToDec (-n).toNat else natToDec n.toNat

/-- Join path segments with the separator (no leading slash). -/
def joinSegs : List GoStr → GoStr
  | [] => []
  | [s] => s
  | s :: rest => s ++ '/' :: joinSegs rest

/-- Absolute path built from segments: `/a/b/...`. -/
def absOf (segs : List GoStr) : GoStr := '/' :: joinSegs segs

/-- Stack step of `filepath.Clean`: processes the split elements of a path,
keeping the stack reversed (`acc` head = last kept segment).  Empty and `.`
elements are dropped; `..` pops a kept segment, is dropped at the root of a
rooted path, and is kept for an unrooted path. -/
def cleanRev (rooted : Bool) : List GoStr → List GoStr → List GoStr
  | acc, [] => acc
  | acc, s :: rest =>
    if s = [] ∨ s = ['.'] then cleanRev rooted acc rest
    else if s = ['.', '.'] then
      match acc with
      | [] => if rooted then cleanRev rooted [] rest else cleanRev rooted [s] rest
      | t :: ts =>
        if t = ['.', '.'] then cleanRev rooted (s :: t :: ts) rest
        else cleanRev rooted ts rest
    else cleanRev rooted (s :: acc) rest

/-- Model of `filepath.Clean` for the unix separator: lexically removes
multiple slashes, `.` elements and resolvable `..` elements. -/
def goClean (p : GoStr) : GoStr :=
  let rooted : Bool := match p with | '/' :: _ => true | _ => false
  let segs := (cleanRev rooted [] (splitCh '/' p)).reverse
  if segs = [] then (if rooted then ['/'] else ['.'])
  else if rooted then '/' :: joinSegs segs else joinSegs segs

/-- Model of `filepath.Join(a, b)`: drop empty arguments, join with the
separator, then `Clean`. -/
def goJoin (a b : GoStr) : GoStr :=
  if a ≠ [] then goClean (a ++ '/' :: b)
  else if b ≠ [] then goClean b
  else []

/-- Model of `filepath.Base`: last element of the path after trailing
separators are removed; `"."` for the empty path, `"/"` for all-separator
paths. -/
def goBase (p : GoStr) : GoStr :=
  if p = [] then ['.']
  else
    let t := (p.reverse.dropWhile (fun c => c = '/')).reverse
    if t = [] then ['/']
    else (t.reverse.takeWhile (fun c => c ≠ '/')).reverse

/-- Reversed-scan loop of `filepath.Ext`. -/
def goExtRev : GoStr → GoStr → GoStr
  | [], _ => []
  | c :: rest, acc =>
    if c = '/' then []
    else if c = '.' then '.' :: acc
    else goExtRev rest (c :: acc)

/-- Model of `filepath.Ext`: suffix starting at the final dot of the last
element, empty if there is none. -/
def goExt (p : GoStr) : GoStr := goExtRev p.reverse []

/-- Model of `filepath.Abs`: absolute paths are cleaned, relative paths are
joined onto the working directory `cwd` (Go reads it from the process). -/
def goAbs (cwd p : GoStr) : GoStr :=
  match p with
  | '/' :: _ => goClean p
  | _ => goJoin cwd p

/-- Segment lists of a cleaned path, helper for `goRel`. -/
def segsOf (p : GoStr) : List GoStr :=
  (splitCh '/' p).filter (fun s => ¬ (s = [] ∨ s = ['.']))

/-- Length of the common leading run of two segment lists. -/
def commonLen : List GoStr → List GoStr → Nat
  | a :: as, b :: bs => if a = b then commonLen as bs + 1 else 0
  | _, _ => 0

/-- Model of `filepath.Rel(base, targ)` for the lexical cases the server
uses (both paths cleaned, matching rootedness); an impossible pair yields
the empty string, matching the caller's discarded error. -/
def goRel (base targ : GoStr) : GoStr :=
  let b := goClean base
  let t := goClean targ
  if b = t then ['.']
  else
    let br : Bool := match b with | '/' :: _ => true | _ => false
    let tr : Bool := match t with | '/' :: _ => true | _ => false
    if br ≠ tr then []
    else
      let bs := segsOf b
      let ts := segsOf t
      let k := commonLen bs ts
      joinSegs (List.replicate (bs.length - k) ['.', '.'] ++ ts.drop k)

/-- Model of `absClean(root, rel)` (part_008): strip a leading separator,
join onto the root, make root and result absolute, and require the result
to have the root as a string prefix. -/
def absClean (cwd root rel : GoStr) : Except GoStr GoStr :=
  let rel' := trimPre rel ['/']
  let abs := goJoin root rel'
  let realRoot := goAbs cwd root
  let realPath := goAbs cwd abs
  if hasPre realPath realRoot then .ok realPath
  else .error (strL "path outside of data dir")

/-- Model of `relAPIPath`: the API path of an absolute file path, a slash
followed by the path relative to the data root. -/
def relAPIPath (dataDir p : GoStr) : GoStr := '/' :: goRel dataDir p

/-- Model of `parseRange(rangeHeader, size)` (part_008): a single
`start-end` or suffix-length `-n` byte range. -/
def parseRange (h : GoStr) (size : Int) : Except Unit (Int × Int) :=
  if ¬ hasPre h (strL "bytes=") then .error ()
  else
    match splitCh '-' (trimPre h (strL "bytes=")) with
    | [p0, p1] =>
      if p0 = [] then
        match parseIntDec p1 with
        | .error _ => .error ()
        | .ok sl0 =>
          let sl := if sl0 > size then size else sl0
          .ok (size - sl, size - 1)
      else
        match parseIntDec p0 with
        | .error _ => .error ()
        | .ok s =>
          match (if p1 = [] then Except.ok (size - 1) else parseIntDec p1) with
          | .error _ => .error ()
          | .ok e => if s > e ∨ e ≥ size then .error () else .ok (s, e)
    | _ => .error ()

/-- HTTP response of the streamer, restricted to the fields the spec talks
about. -/
structure HttpResp where
  status : Nat
  contentRange : Option GoStr
  body : List Nat
deriving DecidableEq, Repr

/-- The `Content-Range` header value `bytes s-e/size`. -/
def contentRangeStr (s e size : Int) : GoStr :=
  strL "bytes " ++ intToDec s ++ '-' :: intToDec e ++ '/' :: intToDec size

/-- Model of the byte-serving part of `FileHandler` (part_008) on an opened
file with contents `content`: no `Range` header serves the whole file with
status 200; a header that `parseRange` rejects yields 416; otherwise the
handler seeks to `start` and streams `end-start+1` bytes with status 206
and the matching `Content-Range` header. -/
def fileRange (content : List Nat) (rangeHeader : GoStr) : HttpResp :=
  let size : Int := content.length
  if rangeHeader = [] then ⟨200, none, content⟩
  else
    match parseRange rangeHeader size with
    | .error _ => ⟨416, none, []⟩
    | .ok (s, e) => ⟨206, some (contentRangeStr s e size),
        (content.drop s.toNat).take (e - s + 1).toNat⟩

/-- Separator set of `tokenize` (search.go): space, comma, semicolon,
colon, dash, underscore, dot. -/
def tokenSep (c : Char) : Bool :=
  c = ' ' || c = ',' || c = ';' || c = ':' || c = '-' || c = '_' || c = '.'

/-- Field splitter modelling `strings.FieldsFunc`: maximal runs of
non-separator characters. -/
def fieldsAux (p : Char → Bool) : GoStr → GoStr → List GoStr
  | [], cur => if cur = [] then [] else [cur.reverse]
  | c :: rest, cur =>
    if p c then
      (if cur = [] then fieldsAux p rest [] else cur.reverse :: fieldsAux p rest [])
    else fieldsAux p rest (c :: cur)

/-- Model of `tokenize` (search.go): split the query on the separator set
and keep the tokens of length at least two. -/
def tokenize (q : GoStr) : List GoStr :=
  (fieldsAux tokenSep q []).filter (fun t => 2 ≤ t.length)

/-- Row of the `files` table (ranked-scan search). -/
structure FileRow where
  id : Nat
  filename : GoStr
  filepathS : GoStr
  mime : GoStr
  uploadedAt : Nat
  exifDT : GoStr
  camera : GoStr
deriving DecidableEq, Repr

/-- The ranked-scan `WHERE` clause: every token matches filename, camera
model, exif datetime or path as a (case-insensitive `LIKE`) substring. -/
def rowMatchesToks (toks : List GoStr) (r : FileRow) : Bool :=
  toks.all (fun t => containsCI r.filename t || containsCI r.camera t ||
    containsCI r.exifDT t || containsCI r.filepathS t)

/-- The ranked-scan score expression (search.go): 200 if the filename
starts with the first token, plus 50 per token contained in the filename,
plus 20 per token contained in the camera model (all case-insensitive). -/
def scoreRow (toks : List GoStr) (r : FileRow) : Nat :=
  (match toks with
   | [] => 0
   | t0 :: _ => if startsCI r.filename t0 then 200 else 0) +
  (toks.map (fun t => if containsCI r.filename t then 50 else 0)).sum +
  (toks.map (fun t => if containsCI r.camera t then 20 else 0)).sum

/-- The `ORDER BY score DESC, uploaded_at DESC` comparison: `a` may be
placed before `b`. -/
def rankedBefore (toks : List GoStr) (a b : FileRow) : Bool :=
  decide (scoreRow toks b < scoreRow toks a ∨
    (scoreRow toks a = scoreRow toks b ∧ b.uploadedAt ≤ a.uploadedAt))

/-- Insertion step of the ordering model. -/
def insertRanked (le : FileRow → FileRow → Bool) (x : FileRow) :
    List FileRow → List FileRow
  | [] => [x]
  | y :: ys => if le x y then x :: y :: ys else y :: insertRanked le x ys

/-- Insertion sort modelling the SQL `ORDER BY`. -/
def sortRanked (le : FileRow → FileRow → Bool) : List FileRow → List FileRow
  | [] => []
  | x :: xs => insertRanked le x (sortRanked le xs)

/-- Model of the ranked-scan (`like_ranked`) branch of `SearchHandler`
(search.go): filter the table by `rowMatchesToks`, order by score then
recency, and paginate. -/
def rankedScan (toks : List GoStr) (rows : List FileRow)
    (offset limit : Nat) : List FileRow :=
  ((sortRanked (rankedBefore toks) (rows.filter (rowMatchesToks toks))).drop
    offset).take limit

/-- Row of the `media` table (device sync, regex search, backup). -/
structure MediaRec where
  id : Nat
  filename : GoStr
  filepathS : GoStr
  sha : GoStr
  deviceId : GoStr
  uploadedAt : Nat
  backedUp : Bool
  backupPath : GoStr
  backupAt : Option GoStr
  exifDT : GoStr
  camera : GoStr
deriving DecidableEq, Repr

/-- Response shape of the regex search model. -/
structure RegexResp where
  status : Nat
  items : List MediaRec
deriving DecidableEq, Repr

/-- Regex match test of `handleRegexSearch`: the compiled regex is tried
on filename, exif datetime and camera model. -/
def matchRow (re : GoStr → Bool) (r : MediaRec) : Bool :=
  re r.filename || re r.exifDT || re r.camera

/-- The collection loop of `handleRegexSearch`: walk the fetched rows,
collect the matching ones (stack `acc` reversed), and break once
`offset+limit` (`stop`) matches are collected. -/
def scanRows (m : MediaRec → Bool) (stop : Nat) :
    List MediaRec → List MediaRec → List MediaRec
  | acc, [] => acc.reverse
  | acc, r :: rs =>
    if m r then
      if stop ≤ acc.length + 1 then (r :: acc).reverse
      else scanRows m stop (r :: acc) rs
    else scanRows m stop acc rs

/-- The final slice `matches[start:end]` of `handleRegexSearch`, with the
clamping done by the Go code. -/
def sliceGo (found : List MediaRec) (offset limit : Nat) : List MediaRec :=
  let start := if 0 < offset then
    (if found.length ≤ offset then found.length else offset) else 0
  let stop := if found.length < start + limit then found.length
    else start + limit
  (found.drop start).take (stop - start)

/-- Model of `handleRegexSearch` (search.go).  `compile` is the external
`regexp.Compile`, returning `none` on a syntactically invalid pattern;
`table` is the `media` table in recency order, so the SQL
`ORDER BY uploaded_at DESC LIMIT 5000` fetch is `table.take 5000`. -/
def handleRegexSearch (compile : GoStr → Option (GoStr → Bool))
    (table : List MediaRec) (pattern : GoStr) (offset limit : Nat) :
    RegexResp :=
  if pattern = [] then ⟨200, (table.drop offset).take limit⟩
  else if 200 < pattern.length then ⟨400, []⟩
  else
    match compile pattern with
    | none => ⟨400, []⟩
    | some re =>
      let fetched := table.take 5000
      let found := scanRows (matchRow re) (offset + limit) [] fetched
      ⟨200, sliceGo found offset limit⟩

/-- On-disk files: association list from path to contents. -/
abbrev Disk := List (GoStr × List Nat)

/-- Existence test (`os.Stat` succeeding on a file). -/
def diskHas (d : Disk) (p : GoStr) : Bool := d.any (fun e => e.1 = p)

/-- Contents of a file. -/
def diskGet (d : Disk) (p : GoStr) : Option (List Nat) :=
  (d.find? (fun e => e.1 = p)).map (fun e => e.2)

/-- Removal of a file (`os.Remove`). -/
def diskDel (d : Disk) (p : GoStr) : Disk := d.filter (fun e => ¬ e.1 = p)

/-- Creation or replacement of a file (`os.Create` + write, and the
destination side of `os.Rename`). -/
def diskPut (d : Disk) (p : GoStr) (b : List Nat) : Disk := (p, b) :: diskDel d p

/-- External collaborators of the sync upload handler: the data root, the
sha256 hex digest, and the EXIF extractor (datetime, camera model) applied
to jpeg contents. -/
structure SyncEnv where
  dataDir : GoStr
  hash : List Nat → GoStr
  exifOf : List Nat → GoStr × GoStr

/-- Mutable state seen by the sync upload handler: the `media` table (in
insertion order; `uploadedAt` values are expected increasing), the next
autoincrement id, and the on-disk files. -/
structure SyncSt where
  media : List MediaRec
  nextId : Nat
  disk : Disk
deriving DecidableEq, Repr

/-- JSON response of `SyncUploadHandler`; `id` is present only on a
non-skipped upload. -/
structure SyncResp where
  status : Nat
  skipped : Bool
  path : GoStr
  id : Option Nat
deriving DecidableEq, Repr

/-- The temporary upload name `.upload_<nanos>_<declared>`. -/
def tmpNameOf (nanos : Nat) (declared : GoStr) : GoStr :=
  strL ".upload_" ++ natToDec nanos ++ '_' :: declared

/-- The effective device id: `unknown` when the form field is empty. -/
def devIdOf (dev : GoStr) : GoStr := if dev = [] then strL "unknown" else dev

/-- The per-device upload directory `DataDir/devices/<deviceID>`. -/
def deviceDirOf (dataDir dev : GoStr) : GoStr :=
  goJoin (goJoin dataDir (strL "devices")) (devIdOf dev)

/-- The temporary upload path inside the device directory. -/
def tmpPathOf (dataDir dev : GoStr) (nanos : Nat) (declared : GoStr) : GoStr :=
  goJoin (deviceDirOf dataDir dev) (tmpNameOf nanos declared)

/-- Fuelled version of the collision-avoidance loop of
`SyncUploadHandler`: Go iterates `i = 1, 2, ...` until `deviceDir/name_i.ext`
does not exist; the fuel `disk.length + 1` candidates suffice on a finite
disk (the Go loop is unbounded). -/
def chooseFPAux (disk : Disk) (dir nameOnly ext : GoStr) :
    Nat → Nat → GoStr → GoStr
  | 0, _, cur => cur
  | fuel + 1, i, cur =>
    if diskHas disk cur then
      chooseFPAux disk dir nameOnly ext fuel (i + 1)
        (goJoin dir (nameOnly ++ '_' :: natToDec i ++ ext))
    else cur

/-- Final path chosen for an upload: the declared name if free, else the
first free `name_i.ext`. -/
def chooseFinalPath (disk : Disk) (dir declared : GoStr) : GoStr :=
  chooseFPAux disk dir (declared.take (declared.length - (goExt declared).length))
    (goExt declared) (disk.length + 1) 1 (goJoin dir declared)

/-- Model of `SyncUploadHandler` (sync.go) after a well-formed multipart
request: write the stream to a temp file while hashing it, skip (deleting
the temp file) if a `media` row already carries the same hash, otherwise
move the temp file to a collision-free final name, extract EXIF data for
jpegs, and insert the metadata row.  `nanos` is the Go `time.Now().UnixNano()`
used in the temp name.  Directory creation and the rename are modelled as
succeeding; the fire-and-forget enqueues have no effect on this state. -/
def syncUpload (env : SyncEnv) (st : SyncSt) (declared : GoStr)
    (content : List Nat) (dev : GoStr) (nanos : Nat) : SyncSt × SyncResp :=
  let deviceID := devIdOf dev
  let deviceDir := deviceDirOf env.dataDir dev
  let tmpPath := tmpPathOf env.dataDir dev nanos declared
  let disk1 := diskPut st.disk tmpPath content
  let sum := env.hash content
  let dup : Option GoStr :=
    match st.media.find? (fun r => r.sha = sum) with
    | some r => if r.filepathS = [] then none else some r.filepathS
    | none => none
  match dup with
  | some existingPath =>
    ({ st with disk := diskDel disk1 tmpPath },
      ⟨200, true, existingPath, none⟩)
  | none =>
    let finalPath := chooseFinalPath disk1 deviceDir declared
    let disk2 := diskPut (diskDel disk1 tmpPath) finalPath content
    let ext := asciiLower (goExt finalPath)
    let exifPair :=
      if ext = strL ".jpg" ∨ ext = strL ".jpeg" then env.exifOf content
      else ([], [])
    let newRec : MediaRec :=
      ⟨st.nextId, goBase finalPath, finalPath, sum, deviceID, 0, false, [],
        none, exifPair.1, exifPair.2⟩
    ({ media := st.media ++ [newRec], nextId := st.nextId + 1, disk := disk2 },
      ⟨200, false, relAPIPath env.dataDir finalPath, some st.nextId⟩)

/-- The metadata row inserted by a non-skipped sync upload: stored under
the collision-free final path (here the declared name, assumed free), with
the content hash, device id, and EXIF fields for jpegs. -/
def syncRecOf (env : SyncEnv) (st : SyncSt) (declared dev : GoStr)
    (content : List Nat) : MediaRec :=
  let fp := goJoin (deviceDirOf env.dataDir dev) declared
  let ext := asciiLower (goExt fp)
  let pair := if ext = strL ".jpg" ∨ ext = strL ".jpeg" then env.exifOf content
    else ([], [])
  ⟨st.nextId, goBase fp, fp, env.hash content, devIdOf dev, 0, false, [],
    none, pair.1, pair.2⟩

/-- The SQL `UPDATE media SET backed_up = 1, backup_path = ?, backup_at = ?
WHERE id = ?` of the backup worker: the three backup fields are set
together. -/
def updateBackup (media : List MediaRec) (mid : Nat) (dest : GoStr)
    (now : GoStr) : List MediaRec :=
  media.map (fun r =>
    if r.id = mid then
      { r with backedUp := true, backupPath := dest, backupAt := some now }
    else r)

/-- Model of `processBackup` (download.go): abandon the job if the source
is missing; re-root the source under the backup directory; if the
destination already exists, only update the record; otherwise copy and
update.  `copyOk` is the outcome of `os.MkdirAll` + `storage.CopyFile`;
the returned `Bool` reports whether bytes were copied. -/
def processBackup (dataDir backupDir : GoStr) (copyOk : Bool) (disk : Disk)
    (media : List MediaRec) (jobPath : GoStr) (jobId : Nat) (now : GoStr) :
    Disk × List MediaRec × Bool :=
  match diskGet disk jobPath with
  | none => (disk, media, false)
  | some bytes =>
    let dest := goJoin backupDir (goRel dataDir jobPath)
    if diskHas disk dest then (disk, updateBackup media jobId dest now, false)
    else if copyOk then (diskPut disk dest bytes, updateBackup media jobId dest now, true)
    else (disk, media, false)

/-- Model of `EnqueueThumbnail` (part_008) on the queue state: `none` means
`StartThumbnailWorker` has not run (nil channel), `some l` a started pool
whose channel (capacity 1024) holds `l`.  Returns the new state and
whether the job was accepted.  When the queue is nil the function returns
immediately: no pool is started and the job is dropped. -/
def enqueueThumbnail (q : Option (List GoStr)) (p : GoStr) :
    Option (List GoStr) × Bool :=
  match q with
  | none => (none, false)
  | some l => if l.length < 1024 then (some (l ++ [p]), true) else (some l, false)

/-- Backup pool state: `none` models the nil `backupQueue` channel. -/
structure BackupPool where
  queue : Option (List (GoStr × Nat))
deriving DecidableEq, Repr

/-- Model of `EnqueueBackup` (download.go).  When the queue is nil the code
runs `go StartBackupWorker(2, DataDir/backups)` and immediately attempts a
non-blocking send; the goroutine has not assigned `backupQueue` at that
point, and in Go a `select` with a `default` branch takes `default` when
the channel is nil, so the triggering job is dropped.  Returns (state,
accepted, startRequested); a send on a full channel (capacity 4096) also
takes `default` and drops the job. -/
def enqueueBackup (st : BackupPool) (p : GoStr) (id : Nat) :
    BackupPool × Bool × Bool :=
  match st.queue with
  | none => (⟨none⟩, false, true)
  | some l =>
    if l.length < 4096 then (⟨some (l ++ [(p, id)])⟩, true, false)
    else (⟨some l⟩, false, false)

/-- Directories implied by `os.MkdirAll p` for an absolute `p`: the root
and every ancestor of the cleaned path. -/
def ancestorDirs (p : GoStr) : List GoStr :=
  let parts := (cleanRev true [] (splitCh '/' p)).reverse
  (parts.inits.filter (fun l => ¬ l = [])).map absOf ++ [strL "/"]

/-- Filesystem state for the storage layer: directories plus files. -/
structure FsState where
  dirs : List GoStr
  files : Disk
deriving DecidableEq, Repr

/-- Model of `storage.SaveFile(destDir, filename, r)` (storage.go): reduce
the declared filename to its base name, join onto `destDir`, ensure
`destDir` exists (`os.MkdirAll`), and create the output file —
`os.Create` fails when the target path is an existing directory. -/
def saveFile (st : FsState) (destDir filename : GoStr) (content : List Nat) :
    Except Unit (GoStr × FsState) :=
  let filename' := goBase filename
  let outPath := goJoin destDir filename'
  let dirs' := st.dirs ++ ancestorDirs destDir
  if outPath ∈ dirs' then .error ()
  else .ok (outPath, ⟨dirs', diskPut st.files outPath content⟩)

/-- Number of decimal digits (length of `natToDec`). -/
def dLen (n : Nat) : Nat :=
  if _h : n < 10 then 1 else dLen (n / 10) + 1
termination_by n
decreasing_by exact Nat.div_lt_self (by omega) (by omega)

/-- A normal path segment: nonempty, not `.` or `..`, and free of the
separator. -/
def isSegB (s : GoStr) : Bool :=
  decide (¬ s = [] ∧ ¬ s = ['.'] ∧ ¬ s = ['.', '.'] ∧ ¬ '/' ∈ s)

/-- A path lies within a root directory: it is the root itself or extends
it past a separator (the specification's notion of staying inside the data
root, used to state the sandbox claims). -/
def withinRoot (root p : GoStr) : Bool :=
  p = root || hasPre p (root ++ ['/'])

/-! Helper lemmas: decimal printing and parsing. -/

theorem digCh_toNat {d : Nat} (h : d < 10) : (digCh d).toNat = 48 + d := by
  interval_cases d <;> decide

theorem isDigitCh_digCh {d : Nat} (h : d < 10) : isDigitCh (digCh d) = true := by
  interval_cases d <;> decide

theorem natToDecAux_lt {n : Nat} (h : n < 10) (acc : GoStr) :
    natToDecAux n acc = digCh (n % 10) :: acc := by
  rw [natToDecAux]; simp [h]

theorem natToDecAux_ge {n : Nat} (h : ¬ n < 10) (acc : GoStr) :
    natToDecAux n acc = natToDecAux (n / 10) (digCh (n % 10) :: acc) := by
  rw [natToDecAux]; simp [h]

theorem dLen_lt {n : Nat} (h : n < 10) : dLen n = 1 := by
  rw [dLen]; simp [h]

theorem dLen_ge {n : Nat} (h : ¬ n < 10) : dLen n = dLen (n / 10) + 1 := by
  rw [dLen]; simp [h]

theorem natToDecAux_digits (n : Nat) : ∀ acc : GoStr,
    acc.all isDigitCh = true → (natToDecAux n acc).all isDigitCh = true := by
  induction n using Nat.strong_induction_on with
  | _ n ih =>
    intro acc hacc
    by_cases h : n < 10
    · rw [natToDecAux_lt h]
      simp [List.all_cons, hacc, isDigitCh_digCh (Nat.mod_lt _ (by omega))]
    · rw [natToDecAux_ge h]
      exact ih (n / 10) (Nat.div_lt_self (by omega) (by omega)) _
        (by simp [List.all_cons, hacc, isDigitCh_digCh (Nat.mod_lt _ (by omega))])

theorem natToDecAux_ne_nil (n : Nat) : ∀ acc : GoStr, natToDecAux n acc ≠ [] := by
  induction n using Nat.strong_induction_on with
  | _ n ih =>
    intro acc
    by_cases h : n < 10
    · rw [natToDecAux_lt h]; simp
    · rw [natToDecAux_ge h]
      exact ih (n / 10) (Nat.div_lt_self (by omega) (by omega)) _

theorem natToDecAux_fold (n : Nat) : ∀ (a : Nat) (acc : GoStr),
    List.foldl (fun a c => a * 10 + (c.toNat - 48)) a (natToDecAux n acc)
      = List.foldl (fun a c => a * 10 + (c.toNat - 48)) (a * 10 ^ dLen n + n) acc := by
  induction n using Nat.strong_induction_on with
  | _ n ih =>
    intro a acc
    by_cases h : n < 10
    · rw [natToDecAux_lt h, dLen_lt h]
      simp only [List.foldl_cons]
      congr 1
      rw [digCh_toNat (Nat.mod_lt _ (by omega))]
      omega
    · rw [natToDecAux_ge h, dLen_ge h,
        ih (n / 10) (Nat.div_lt_self (by omega) (by omega))]
      simp only [List.foldl_cons]
      congr 1
      rw [digCh_toNat (Nat.mod_lt _ (by omega))]
      have hdm : 10 * (n / 10) + n % 10 = n := Nat.div_add_mod n 10
      have hp : (10 : Nat) ^ (dLen (n / 10) + 1) = 10 ^ dLen (n / 10) * 10 :=
        pow_succ 10 _
      rw [hp]
      have : (a * (10 ^ dLen (n / 10) * 10) + n)
          = (a * 10 ^ dLen (n / 10) + n / 10) * 10 + (n % 10) := by
        rw [Nat.mul_comm (10 ^ dLen (n / 10)) 10] at hp ⊢
        ring_nf
        omega
      omega

theorem digitsVal_natToDec (n : Nat) : digitsVal (natToDec n) = n := by
  have := natToDecAux_fold n 0 []
  simpa [digitsVal, natToDec] using this

theorem natToDec_digits (n : Nat) : (natToDec n).all isDigitCh = true :=
  natToDecAux_digits n [] rfl

theorem natToDec_ne_nil (n : Nat) : natToDec n ≠ [] := natToDecAux_ne_nil n []

theorem natToDec_no_dash (n : Nat) : '-' ∉ natToDec n := by
  intro hmem
  have := List.all_eq_true.mp (natToDec_digits n) _ hmem
  exact absurd this (by decide)

theorem parseIntDec_natToDec {n : Nat} (h : n ≤ 2 ^ 63 - 1) :
    parseIntDec (natToDec n) = .ok (n : Int) := by
  obtain ⟨c, rest, hcr⟩ := List.exists_cons_of_ne_nil (natToDec_ne_nil n)
  have hc : isDigitCh c = true :=
    List.all_eq_true.mp (natToDec_digits n) c (by rw [hcr]; exact List.mem_cons_self _ _)
  have hplus : ¬ c = '+' := by intro e; rw [e] at hc; exact absurd hc (by decide)
  have hminus : ¬ c = '-' := by intro e; rw [e] at hc; exact absurd hc (by decide)
  have hval : digitsVal (c :: rest) = n := by rw [← hcr]; exact digitsVal_natToDec n
  have hall : (c :: rest).all isDigitCh = true := by rw [← hcr]; exact natToDec_digits n
  rw [hcr]
  simp only [parseIntDec, hplus, hminus, if_false, hall]
  simp only [hval]
  simp [show n ≤ 2 ^ 63 - 1 by exact h]
  omega

/-! Helper lemmas: splitting and prefix trimming. -/

theorem splitCh_ne_nil (c : Char) (l : GoStr) : splitCh c l ≠ [] := by
  cases l with
  | nil => simp [splitCh]
  | cons x xs =>
    simp only [splitCh]
    rcases h : splitCh c xs with _ | ⟨y, ys⟩
    · simp
    · by_cases hxc : x = c <;> simp [hxc]

theorem splitCh_cons_self (c : Char) (xs : GoStr) :
    splitCh c (c :: xs) = [] :: splitCh c xs := by
  simp only [splitCh]
  rcases h : splitCh c xs with _ | ⟨y, ys⟩
  · exact absurd h (splitCh_ne_nil c xs)
  · simp

theorem splitCh_cons_ne {c x : Char} (hx : ¬ x = c) (xs : GoStr) :
    ∃ y ys, splitCh c xs = y :: ys ∧ splitCh c (x :: xs) = (x :: y) :: ys := by
  rcases h : splitCh c xs with _ | ⟨y, ys⟩
  · exact absurd h (splitCh_ne_nil c xs)
  · exact ⟨y, ys, rfl, by simp only [splitCh, h]; simp [hx]⟩

theorem splitCh_not_mem {c : Char} : ∀ {l : GoStr}, c ∉ l → splitCh c l = [l] := by
  intro l
  induction l with
  | nil => intro _; rfl
  | cons x xs ih =>
    intro h
    have hx : ¬ x = c := fun e => h (by rw [e]; exact List.mem_cons_self _ _)
    have hxs : c ∉ xs := fun m => h (List.mem_cons_of_mem _ m)
    obtain ⟨y, ys, h1, h2⟩ := splitCh_cons_ne hx xs
    rw [h2, ih hxs] at *
    cases h1
    rfl

theorem splitCh_append {c : Char} : ∀ {a : GoStr}, c ∉ a → ∀ b : GoStr,
    splitCh c (a ++ c :: b) = a :: splitCh c b := by
  intro a
  induction a with
  | nil => intro _ b; exact splitCh_cons_self c b
  | cons x xs ih =>
    intro h b
    have hx : ¬ x = c := fun e => h (by rw [e]; exact List.mem_cons_self _ _)
    have hxs : c ∉ xs := fun m => h (List.mem_cons_of_mem _ m)
    obtain ⟨y, ys, h1, h2⟩ := splitCh_cons_ne hx (xs ++ c :: b)
    rw [ih hxs b] at h1
    cases h1
    simpa using h2

theorem hasPre_append (pre x : GoStr) : hasPre (pre ++ x) pre = true := by
  simp only [hasPre, List.isPrefixOf_iff_prefix]
  exact List.prefix_append _ _

theorem trimPre_append (pre x : GoStr) : trimPre (pre ++ x) pre = x := by
  simp only [trimPre, List.isPrefixOf_iff_prefix]
  rw [if_pos (List.prefix_append _ _)]
  exact List.drop_left _ _

theorem hasPre_of_hasPre_sep {p a : GoStr}
    (h : hasPre p (a ++ ['/']) = true) : hasPre p a = true := by
  simp only [hasPre, List.isPrefixOf_iff_prefix] at h ⊢
  exact (List.prefix_append a ['/']).trans h

/-! Helper lemmas: path cleaning. -/

theorem isSegB_iff {s : GoStr} :
    isSegB s = true ↔ (¬ s = [] ∧ ¬ s = ['.'] ∧ ¬ s = ['.', '.'] ∧ '/' ∉ s) := by
  simp [isSegB]

theorem joinSegs_concat {l : List GoStr} (h : l ≠ []) (b : GoStr) :
    joinSegs (l ++ [b]) = joinSegs l ++ '/' :: b := by
  induction l with
  | nil => cases h rfl
  | cons s rest ih =>
    cases rest with
    | nil => simp [joinSegs]
    | cons s2 rest2 =>
      have h2 := ih (by simp)
      calc joinSegs ((s :: s2 :: rest2) ++ [b])
          = s ++ '/' :: joinSegs ((s2 :: rest2) ++ [b]) := by simp [joinSegs]
        _ = s ++ '/' :: (joinSegs (s2 :: rest2) ++ '/' :: b) := by rw [h2]
        _ = (s ++ '/' :: joinSegs (s2 :: rest2)) ++ '/' :: b := by simp
        _ = joinSegs (s :: s2 :: rest2) ++ '/' :: b := by simp [joinSegs]

theorem splitCh_joinSegs {segs : List GoStr} (h : segs ≠ [])
    (hn : ∀ s ∈ segs, '/' ∉ s) :
    splitCh '/' (joinSegs segs) = segs := by
  induction segs with
  | nil => cases h rfl
  | cons s ss ih =>
    cases ss with
    | nil => exact splitCh_not_mem (hn s (List.mem_cons_self _ _))
    | cons s2 ss2 =>
      have h2 := ih (by simp) (fun x hx => hn x (List.mem_cons_of_mem _ hx))
      simp only [joinSegs]
      rw [splitCh_append (hn s (List.mem_cons_self _ _)), h2]

theorem splitCh_joinSegs_append {segs : List GoStr} (h : segs ≠ [])
    (hn : ∀ s ∈ segs, '/' ∉ s) (rest : GoStr) :
    splitCh '/' (joinSegs segs ++ '/' :: rest) = segs ++ splitCh '/' rest := by
  induction segs with
  | nil => cases h rfl
  | cons s ss ih =>
    cases ss with
    | nil =>
      simp only [joinSegs]
      rw [splitCh_append (hn s (List.mem_cons_self _ _))]
      rfl
    | cons s2 ss2 =>
      have h2 := ih (by simp) (fun x hx => hn x (List.mem_cons_of_mem _ hx))
      simp only [joinSegs, List.cons_append, List.append_assoc] at h2 ⊢
      rw [splitCh_append (hn s (List.mem_cons_self _ _)), h2]

theorem cleanRev_skip_segs {mid : List GoStr}
    (hmid : ∀ s ∈ mid, isSegB s = true) :
    ∀ (rooted : Bool) (acc tail : List GoStr),
    cleanRev rooted acc (mid ++ tail) = cleanRev rooted (mid.reverse ++ acc) tail := by
  induction mid with
  | nil => intro rooted acc tail; simp
  | cons s ss ih =>
    intro rooted acc tail
    obtain ⟨h1, h2, h3, _⟩ := isSegB_iff.mp (hmid s (List.mem_cons_self _ _))
    have hcond : ¬ (s = [] ∨ s = ['.']) := by
      intro hc; rcases hc with hc | hc
      · exact h1 hc
      · exact h2 hc
    show cleanRev rooted acc (s :: (ss ++ tail)) = _
    simp only [cleanRev, if_neg hcond, if_neg h3]
    rw [ih (fun x hx => hmid x (List.mem_cons_of_mem _ hx))]
    simp

theorem segs_no_slash {segs : List GoStr}
    (hseg : ∀ s ∈ segs, isSegB s = true) : ∀ s ∈ segs, '/' ∉ s :=
  fun s hs => (isSegB_iff.mp (hseg s hs)).2.2.2

theorem cleanRev_absOf {segs : List GoStr} (h : segs ≠ [])
    (hseg : ∀ s ∈ segs, isSegB s = true) :
    (cleanRev true [] (splitCh '/' (absOf segs))).reverse = segs := by
  have hsp : splitCh '/' (absOf segs) = [] :: segs := by
    unfold absOf
    rw [splitCh_cons_self, splitCh_joinSegs h (segs_no_slash hseg)]
  rw [hsp]
  show (cleanRev true [] ([] :: segs)).reverse = segs
  simp only [cleanRev, if_pos (Or.inl rfl)]
  have := cleanRev_skip_segs hseg true [] []
  simp only [List.append_nil] at this
  rw [this]
  simp [cleanRev]

theorem splitCh_absOf_append {segs : List GoStr} (h : segs ≠ [])
    (hseg : ∀ s ∈ segs, isSegB s = true) (rest : GoStr) :
    splitCh '/' (absOf segs ++ '/' :: rest) = [] :: segs ++ splitCh '/' rest := by
  have : absOf segs ++ '/' :: rest = '/' :: (joinSegs segs ++ '/' :: rest) := by
    simp [absOf]
  rw [this, splitCh_cons_self,
    splitCh_joinSegs_append h (segs_no_slash hseg) rest]
  simp

theorem cleanRev_abs_tail {segs : List GoStr} (h : segs ≠ [])
    (hseg : ∀ s ∈ segs, isSegB s = true) (tail : List GoStr) :
    cleanRev true [] (([] : GoStr) :: segs ++ tail)
      = cleanRev true segs.reverse tail := by
  show cleanRev true [] (([] : GoStr) :: (segs ++ tail)) = _
  simp only [cleanRev, if_pos (Or.inl rfl)]
  have := cleanRev_skip_segs hseg true [] tail
  simpa using this

theorem goClean_cons_slash (x : GoStr) :
    goClean ('/' :: x) =
      (if ((cleanRev true [] (splitCh '/' ('/' :: x))).reverse = []) then ['/']
       else '/' :: joinSegs (cleanRev true [] (splitCh '/' ('/' :: x))).reverse) := by
  simp [goClean]

theorem absOf_cons (segs : List GoStr) : absOf segs = '/' :: joinSegs segs := rfl

theorem goClean_abs_seg {segs : List GoStr} (h : segs ≠ [])
    (hseg : ∀ s ∈ segs, isSegB s = true) {b : GoStr} (hb : isSegB b = true) :
    goClean (absOf segs ++ '/' :: b) = absOf (segs ++ [b]) := by
  have hb' : '/' ∉ b := (isSegB_iff.mp hb).2.2.2
  have hsp : splitCh '/' (absOf segs ++ '/' :: b) = [] :: segs ++ [b] := by
    rw [splitCh_absOf_append h hseg, splitCh_not_mem hb']
  have habs : absOf segs ++ '/' :: b = '/' :: (joinSegs segs ++ '/' :: b) := by
    simp [absOf]
  rw [habs, goClean_cons_slash, ← habs, hsp]
  have hall : ∀ s ∈ segs ++ [b], isSegB s = true := by
    intro s hs
    rcases List.mem_append.mp hs with hs | hs
    · exact hseg s hs
    · rw [List.mem_singleton.mp hs]; exact hb
  have hcr : cleanRev true [] (([] : GoStr) :: segs ++ [b])
      = cleanRev true segs.reverse [b] := cleanRev_abs_tail h hseg [b]
  have hpush : cleanRev true segs.reverse [b] = b :: segs.reverse := by
    obtain ⟨h1, h2, h3, _⟩ := isSegB_iff.mp hb
    have hcond : ¬ (b = [] ∨ b = ['.']) := by
      intro hc; rcases hc with hc | hc
      · exact h1 hc
      · exact h2 hc
    simp only [cleanRev, if_neg hcond, if_neg h3]
  have : (cleanRev true [] (([] : GoStr) :: segs ++ [b])).reverse = segs ++ [b] := by
    rw [hcr, hpush]; simp
  rw [List.cons_append] at this ⊢
  rw [this, if_neg (by simp)]
  rfl

theorem goClean_abs_skip {segs : List GoStr} (h : segs ≠ [])
    (hseg : ∀ s ∈ segs, isSegB s = true) (tail : List GoStr)
    (htail : ∀ s ∈ tail, s = [] ∨ s = ['.']) (rest : GoStr)
    (hsp : splitCh '/' (absOf segs ++ '/' :: rest) = [] :: segs ++ tail) :
    goClean (absOf segs ++ '/' :: rest) = absOf segs := by
  have habs : absOf segs ++ '/' :: rest = '/' :: (joinSegs segs ++ '/' :: rest) := by
    simp [absOf]
  rw [habs, goClean_cons_slash, ← habs, hsp]
  have hskip : cleanRev true segs.reverse tail = segs.reverse := by
    clear hsp
    induction tail with
    | nil => rfl
    | cons s ts ih =>
      have hs := htail s (List.mem_cons_self _ _)
      simp only [cleanRev, if_pos hs]
      exact ih (fun x hx => htail x (List.mem_cons_of_mem _ hx))
  have : (cleanRev true [] (([] : GoStr) :: segs ++ tail)).reverse = segs := by
    rw [cleanRev_abs_tail h hseg tail, hskip]; simp
  rw [List.cons_append] at this ⊢
  rw [this, if_neg h]
  rfl

theorem goClean_abs_slash {segs : List GoStr} (h : segs ≠ [])
    (hseg : ∀ s ∈ segs, isSegB s = true) :
    goClean (absOf segs ++ '/' :: ['/']) = absOf segs := by
  refine goClean_abs_skip h hseg [[], []] ?_ ['/'] ?_
  · intro s hs
    rcases List.mem_cons.mp hs with hs | hs
    · exact Or.inl hs
    · exact Or.inl (List.mem_singleton.mp hs)
  · rw [splitCh_absOf_append h hseg, splitCh_cons_self]
    rfl

theorem goClean_abs_dot {segs : List GoStr} (h : segs ≠ [])
    (hseg : ∀ s ∈ segs, isSegB s = true) :
    goClean (absOf segs ++ '/' :: ['.']) = absOf segs := by
  refine goClean_abs_skip h hseg [['.']] ?_ ['.'] ?_
  · intro s hs
    exact Or.inr (List.mem_singleton.mp hs)
  · rw [splitCh_absOf_append h hseg, splitCh_not_mem (by decide)]

theorem goClean_abs_dotdot {segs : List GoStr} (h : segs ≠ [])
    (hseg : ∀ s ∈ segs, isSegB s = true) :
    goClean (absOf segs ++ '/' :: ['.', '.'])
      = (if segs.dropLast = [] then ['/'] else absOf segs.dropLast) := by
  have hsp : splitCh '/' (absOf segs ++ '/' :: ['.', '.'])
      = [] :: segs ++ [['.', '.']] := by
    rw [splitCh_absOf_append h hseg, splitCh_not_mem (by decide)]
  have habs : absOf segs ++ '/' :: ['.', '.']
      = '/' :: (joinSegs segs ++ '/' :: ['.', '.']) := by simp [absOf]
  rw [habs, goClean_cons_slash, ← habs, hsp]
  rcases List.eq_nil_or_concat segs with hnil | ⟨L, lst, hcat⟩
  · cases h hnil
  · have hlst : isSegB lst = true := by
      apply hseg; rw [hcat]; simp [List.concat_eq_append]
    have hrev : segs.reverse = lst :: L.reverse := by
      rw [hcat]; simp [List.concat_eq_append]
    have hpop : cleanRev true segs.reverse [['.', '.']] = L.reverse := by
      rw [hrev]
      have hlst2 : ¬ lst = ['.', '.'] := (isSegB_iff.mp hlst).2.2.1
      simp only [cleanRev,
        if_neg (by decide : ¬ ((['.', '.'] : GoStr) = [] ∨ (['.', '.'] : GoStr) = ['.']))]
      simp [hlst2]
    have hdl : segs.dropLast = L := by
      rw [hcat, List.concat_eq_append]; exact List.dropLast_concat
    have : (cleanRev true [] (([] : GoStr) :: segs ++ [['.', '.']])).reverse
        = L := by
      rw [cleanRev_abs_tail h hseg, hpop]; simp
    rw [List.cons_append] at this ⊢
    rw [this, hdl]
    by_cases hL : L = []
    · rw [if_pos hL, if_pos hL]
    · rw [if_neg hL, if_neg hL]
      rfl

theorem goClean_absOf {segs : List GoStr} (h : segs ≠ [])
    (hseg : ∀ s ∈ segs, isSegB s = true) :
    goClean (absOf segs) = absOf segs := by
  rw [absOf_cons, goClean_cons_slash, ← absOf_cons, cleanRev_absOf h hseg,
    if_neg h]
  rfl

theorem cleanRev_mem_ne_nil {rooted : Bool} :
    ∀ (l acc : List GoStr), (∀ x ∈ acc, x ≠ []) →
    ∀ x ∈ cleanRev rooted acc l, x ≠ [] := by
  intro l
  induction l with
  | nil => intro acc hacc; simpa [cleanRev] using hacc
  | cons s rest ih =>
    intro acc hacc
    by_cases h1 : s = [] ∨ s = ['.']
    · simp only [cleanRev, if_pos h1]; exact ih acc hacc
    · by_cases h2 : s = ['.', '.']
      · simp only [cleanRev, if_neg h1, if_pos h2]
        rcases acc with _ | ⟨t, ts⟩
        · by_cases hr : rooted
          · simp only [if_pos hr]; exact ih [] (by simp)
          · simp only [if_neg hr]
            refine ih [s] ?_
            intro x hx
            rw [List.mem_singleton.mp hx, h2]
            simp
        · by_cases ht : t = ['.', '.']
          · simp only [if_pos ht]
            refine ih (s :: t :: ts) ?_
            intro x hx
            rcases List.mem_cons.mp hx with hx | hx
            · rw [hx, h2]; simp
            · exact hacc x hx
          · simp only [if_neg ht]
            refine ih ts ?_
            intro x hx
            exact hacc x (List.mem_cons_of_mem _ hx)
      · simp only [cleanRev, if_neg h1, if_neg h2]
        refine ih (s :: acc) ?_
        intro x hx
        rcases List.mem_cons.mp hx with hx | hx
        · rw [hx]; intro e; exact h1 (Or.inl e)
        · exact hacc x hx

theorem joinSegs_ne_nil {l : List GoStr} (h : l ≠ [])
    (hx : ∀ x ∈ l, x ≠ []) : joinSegs l ≠ [] := by
  rcases l with _ | ⟨s, rest⟩
  · cases h rfl
  · rcases rest with _ | ⟨s2, rest2⟩
    · exact hx s (List.mem_cons_self _ _)
    · simp [joinSegs]

theorem goClean_ne_nil (p : GoStr) : goClean p ≠ [] := by
  simp only [goClean]
  set rooted : Bool := match p with | '/' :: _ => true | _ => false with hr
  set segs := (cleanRev rooted [] (splitCh '/' p)).reverse with hs
  by_cases h : segs = []
  · rw [if_pos h]; by_cases hb : rooted = true <;> simp [hb]
  · rw [if_neg h]
    by_cases hb : rooted = true
    · simp [hb]
    · have hb' : rooted = false := by
        rcases rooted with _ | _
        · rfl
        · exact absurd rfl hb
      simp only [hb', if_false, Bool.false_eq_true]
      refine joinSegs_ne_nil h ?_
      intro x hxm
      exact cleanRev_mem_ne_nil (splitCh '/' p) [] (by simp) x
        (List.mem_reverse.mp hxm)

theorem goJoin_ne_nil {a b : GoStr} (h : a ≠ [] ∨ b ≠ []) : goJoin a b ≠ [] := by
  by_cases ha : a = []
  · have hb : b ≠ [] := by
      rcases h with h | h
      · cases h ha
      · exact h
    simp only [goJoin, ha]
    simp [hb, goClean_ne_nil]
  · simp only [goJoin]
    simp [ha, goClean_ne_nil]

theorem goJoin_absOf (segs : List GoStr) (x : GoStr) :
    goJoin (absOf segs) x = goClean (absOf segs ++ '/' :: x) := by
  simp [goJoin, absOf]

theorem mem_ancestorDirs_self {segs : List GoStr} (h : segs ≠ [])
    (hseg : ∀ s ∈ segs, isSegB s = true) :
    absOf segs ∈ ancestorDirs (absOf segs) := by
  simp only [ancestorDirs, cleanRev_absOf h hseg]
  apply List.mem_append_left
  apply List.mem_map_of_mem
  simp only [List.mem_filter]
  constructor
  · exact (List.mem_inits _ _).mpr (List.prefix_refl _)
  · simpa using h

theorem mem_ancestorDirs_root {segs : List GoStr} (h : segs ≠ [])
    (hseg : ∀ s ∈ segs, isSegB s = true) :
    strL "/" ∈ ancestorDirs (absOf segs) := by
  simp only [ancestorDirs, cleanRev_absOf h hseg]
  apply List.mem_append_right
  simp

theorem mem_ancestorDirs_dropLast {segs : List GoStr} (h : segs ≠ [])
    (hseg : ∀ s ∈ segs, isSegB s = true) (hd : segs.dropLast ≠ []) :
    absOf segs.dropLast ∈ ancestorDirs (absOf segs) := by
  simp only [ancestorDirs, cleanRev_absOf h hseg]
  apply List.mem_append_left
  apply List.mem_map_of_mem
  simp only [List.mem_filter]
  constructor
  · refine (List.mem_inits _ _).mpr ?_
    rcases List.eq_nil_or_concat segs with hnil | ⟨L, lst, hcat⟩
    · cases h hnil
    · rw [hcat, List.concat_eq_append, List.dropLast_concat]
      exact List.prefix_append _ _
  · simpa using hd

theorem dropWhile_head_false {p : Char → Bool} :
    ∀ (l : GoStr) (c : Char) (cs : GoStr),
    List.dropWhile p l = c :: cs → p c = false := by
  intro l
  induction l with
  | nil => intro c cs h; exact absurd h (by simp)
  | cons x xs ih =>
    intro c cs h
    by_cases hx : p x
    · rw [List.dropWhile_cons_of_pos hx] at h
      exact ih c cs h
    · rw [List.dropWhile_cons_of_neg hx] at h
      cases h
      exact Bool.of_not_eq_true hx

theorem goBase_cases (f : GoStr) :
    goBase f = ['/'] ∨ goBase f = ['.'] ∨ goBase f = ['.', '.'] ∨
      isSegB (goBase f) = true := by
  by_cases hf : f = []
  · simp [goBase, hf]
  · simp only [goBase, if_neg hf]
    by_cases htn : ((f.reverse.dropWhile (fun c => c = '/')).reverse : GoStr) = []
    · rw [if_pos htn]; exact Or.inl rfl
    · rw [if_neg htn]
      set t := ((f.reverse.dropWhile (fun c => c = '/')).reverse : GoStr) with ht
      have htr : t.reverse = f.reverse.dropWhile (fun c => c = '/') := by
        rw [ht, List.reverse_reverse]
      have htrn : t.reverse ≠ [] := by simpa using htn
      obtain ⟨c, cs, hc⟩ := List.exists_cons_of_ne_nil htrn
      have hcz : ¬ (c = '/') := by
        have := dropWhile_head_false f.reverse c cs (htr ▸ hc)
        simpa using this
      set u := ((t.reverse.takeWhile (fun c => ¬ c = '/')).reverse : GoStr) with hu
      have hun : u ≠ [] := by
        rw [hu, hc, List.takeWhile_cons_of_pos (by simpa using hcz)]
        simp
      have hnos : '/' ∉ u := by
        intro hm
        have hm2 : '/' ∈ t.reverse.takeWhile (fun c => ¬ c = '/') := by
          rw [hu] at hm
          exact List.mem_reverse.mp hm
        have := List.mem_takeWhile_imp hm2
        simp at this
      by_cases h1 : u = ['.']
      · exact Or.inr (Or.inl h1)
      · by_cases h2 : u = ['.', '.']
        · exact Or.inr (Or.inr (Or.inl h2))
        · exact Or.inr (Or.inr (Or.inr (isSegB_iff.mpr ⟨hun, h1, h2, hnos⟩)))

theorem absOf_concat {segs : List GoStr} (h : segs ≠ []) (b : GoStr) :
    absOf (segs ++ [b]) = absOf segs ++ '/' :: b := by
  simp [absOf, joinSegs_concat h]

/-- C10: for every uploaded filename, `SaveFile` stores the file under
`destDir` joined with only the base name of the declared filename; a
declared filename containing directory separators or `..` components never
causes a write outside `destDir` — a successful save always writes to a
direct child `destDir/base`, because a base name of `/`, `.` or `..` makes
the target path collide with `destDir` itself or an ancestor directory,
on which `os.Create` fails.  `destDir` is any absolute clean directory
path `absOf segs`. -/
theorem claimC10_saveFile_inside (segs : List GoStr) (st : FsState)
    (filename : GoStr) (content : List Nat) (p : GoStr) (st' : FsState)
    (hsegs : segs ≠ []) (hseg : ∀ s ∈ segs, isSegB s = true)
    (hok : saveFile st (absOf segs) filename content = .ok (p, st')) :
    p = absOf segs ++ '/' :: goBase filename ∧
      isSegB (goBase filename) = true ∧
      st'.files = diskPut st.files p content := by
  have key : saveFile st (absOf segs) filename content
      = (if goJoin (absOf segs) (goBase filename)
            ∈ st.dirs ++ ancestorDirs (absOf segs)
         then Except.error ()
         else Except.ok (goJoin (absOf segs) (goBase filename),
           ⟨st.dirs ++ ancestorDirs (absOf segs),
            diskPut st.files (goJoin (absOf segs) (goBase filename)) content⟩)) :=
    rfl
  rw [key] at hok
  rcases goBase_cases filename with hb | hb | hb | hb
  · rw [hb, goJoin_absOf, goClean_abs_slash hsegs hseg,
      if_pos (List.mem_append_right _ (mem_ancestorDirs_self hsegs hseg))] at hok
    cases hok
  · rw [hb, goJoin_absOf, goClean_abs_dot hsegs hseg,
      if_pos (List.mem_append_right _ (mem_ancestorDirs_self hsegs hseg))] at hok
    cases hok
  · rw [hb, goJoin_absOf, goClean_abs_dotdot hsegs hseg] at hok
    by_cases hd : segs.dropLast = []
    · rw [if_pos hd] at hok
      have hroot : (['/'] : GoStr) ∈ ancestorDirs (absOf segs) :=
        mem_ancestorDirs_root hsegs hseg
      rw [if_pos (List.mem_append_right _ hroot)] at hok
      cases hok
    · rw [if_neg hd,
        if_pos (List.mem_append_right _
          (mem_ancestorDirs_dropLast hsegs hseg hd))] at hok
      cases hok
  · rw [goJoin_absOf, goClean_abs_seg hsegs hseg hb] at hok
    by_cases hmem : absOf (segs ++ [goBase filename])
        ∈ st.dirs ++ ancestorDirs (absOf segs)
    · rw [if_pos hmem] at hok
      cases hok
    · rw [if_neg hmem] at hok
      simp only [Except.ok.injEq, Prod.mk.injEq] at hok
      obtain ⟨h1, h2⟩ := hok
      have hp : p = absOf segs ++ '/' :: goBase filename := by
        rw [← h1, absOf_concat hsegs]
      refine ⟨hp, hb, ?_⟩
      rw [← h2]
      rw [← h1, absOf_concat hsegs]

/-- Witness for C10 at a concrete save of declared name `pho/to.png` into
`/data`: the stored path is `/data/to.png`. -/
theorem claimC10_witness :
    strL "/data/to.png" = absOf [strL "data"] ++ '/' :: goBase (strL "pho/to.png") ∧
      isSegB (goBase (strL "pho/to.png")) = true ∧
      (⟨[strL "/data", strL "/"],
        [(strL "/data/to.png", [1])]⟩ : FsState).files
        = diskPut ([] : Disk) (strL "/data/to.png") [1] :=
  claimC10_saveFile_inside [strL "data"] ⟨[], []⟩ (strL "pho/to.png") [1]
    (strL "/data/to.png") ⟨[strL "/data", strL "/"], [(strL "/data/to.png", [1])]⟩
    (by decide) (by decide) (by rfl)

/-- C1 counterexample: the virtual path `../data2/x` contains a `..`
segment, yet `absClean` over the data root `/data` succeeds — and the
resolved absolute path `/data2/x` lies outside the canonical data root,
because the check is a plain string-prefix test. -/
theorem claimC1_counterexample :
    absClean (strL "/srv") (strL "/data") (strL "../data2/x")
        = Except.ok (strL "/data2/x") ∧
      subOccurs (strL "..") (strL "../data2/x") = true ∧
      withinRoot (strL "/data") (strL "/data2/x") = false :=
  ⟨by rfl, by decide, by decide⟩

/-- C1 amended: `absClean` succeeds exactly on the lexically cleaned join
of root and virtual path whenever that result has the canonical root as a
plain string prefix; `..` segments are resolved lexically rather than
rejected, and the prefix test accepts any path that lies within the root —
but, being a string test, also sibling paths whose name extends the
root's (the counterexample `/data2/x` under `/data`). -/
theorem claimC1_amended (cwd root rel : GoStr) :
    (∀ q, absClean cwd root rel = .ok q →
      q = goAbs cwd (goJoin root (trimPre rel ['/'])) ∧
        hasPre q (goAbs cwd root) = true) ∧
    (withinRoot (goAbs cwd root)
        (goAbs cwd (goJoin root (trimPre rel ['/']))) = true →
      absClean cwd root rel
        = .ok (goAbs cwd (goJoin root (trimPre rel ['/'])))) := by
  have key : absClean cwd root rel
      = (if hasPre (goAbs cwd (goJoin root (trimPre rel ['/'])))
            (goAbs cwd root) = true
         then Except.ok (goAbs cwd (goJoin root (trimPre rel ['/'])))
         else Except.error (strL "path outside of data dir")) := by
    simp [absClean]
  constructor
  · intro q hq
    rw [key] at hq
    by_cases hc : hasPre (goAbs cwd (goJoin root (trimPre rel ['/'])))
        (goAbs cwd root) = true
    · rw [if_pos hc] at hq
      cases hq
      exact ⟨rfl, hc⟩
    · rw [if_neg hc] at hq
      cases hq
  · intro hw
    have hc : hasPre (goAbs cwd (goJoin root (trimPre rel ['/'])))
        (goAbs cwd root) = true := by
      simp only [withinRoot, Bool.or_eq_true] at hw
      rcases hw with hw | hw
      · have : goAbs cwd (goJoin root (trimPre rel ['/'])) = goAbs cwd root := by
          simpa using hw
        rw [this]
        simp [hasPre, List.isPrefixOf_iff_prefix]
      · exact hasPre_of_hasPre_sep hw
    rw [key, if_pos hc]

/-- Witness for C1 (amended) at the in-root virtual path `/photos/a.jpg`
under root `/data`. -/
theorem claimC1_witness :
    absClean (strL "/srv") (strL "/data") (strL "/photos/a.jpg")
      = .ok (goAbs (strL "/srv")
          (goJoin (strL "/data") (trimPre (strL "/photos/a.jpg") ['/']))) :=
  (claimC1_amended (strL "/srv") (strL "/data") (strL "/photos/a.jpg")).2
    (by decide)

/-- C3 counterexample: with no pool started, `EnqueueThumbnail` neither
starts a pool nor keeps the job (state stays `none`, job not accepted), and
`EnqueueBackup` requests the lazy default-pool start but its own
non-blocking send still drops the job. -/
theorem claimC3_counterexample :
    enqueueThumbnail none (strL "/data/devices/d1/a.jpg") = (none, false) ∧
      enqueueBackup ⟨none⟩ (strL "/data/devices/d1/a.jpg") 1
        = (⟨none⟩, false, true) :=
  ⟨by rfl, by rfl⟩

/-- C3 amended: when no pool is started, `EnqueueThumbnail` drops the job
without starting anything; `EnqueueBackup` requests an asynchronous
default-pool start but drops the triggering job; a job is retained
exactly when a pool is already running with queue room. -/
theorem claimC3_amended (p : GoStr) (id : Nat) (l : List GoStr) :
    enqueueThumbnail none p = (none, false) ∧
    enqueueBackup ⟨none⟩ p id = (⟨none⟩, false, true) ∧
    (l.length < 1024 → enqueueThumbnail (some l) p = (some (l ++ [p]), true)) := by
  refine ⟨rfl, rfl, ?_⟩
  intro h
  simp [enqueueThumbnail, h]

/-- Witness for C3 (amended): a job enqueued on a started, non-full pool is
retained. -/
theorem claimC3_witness :
    enqueueThumbnail (some []) (strL "/a.jpg")
      = (some ([] ++ [strL "/a.jpg"]), true) :=
  (claimC3_amended (strL "/a.jpg") 1 []).2.2 (by decide)

/-- C7 counterexample: under query `sunset`, the records `sunset.jpg`
(uploaded at time 3) and `sunset_beach.jpg` (uploaded at time 5) both
match and both receive the 200-point prefix bonus, so they tie at score
250 and the tie is broken by recency: `sunset.jpg` is ranked below
`sunset_beach.jpg`. -/
theorem claimC7_counterexample :
    rankedScan (tokenize (strL "sunset"))
        [⟨1, strL "sunset.jpg", strL "/d/sunset.jpg", [], 3, [], []⟩,
         ⟨2, strL "sunset_beach.jpg", strL "/d/sunset_beach.jpg", [], 5, [], []⟩]
        0 100
      = [⟨2, strL "sunset_beach.jpg", strL "/d/sunset_beach.jpg", [], 5, [], []⟩,
         ⟨1, strL "sunset.jpg", strL "/d/sunset.jpg", [], 3, [], []⟩] ∧
    rowMatchesToks (tokenize (strL "sunset"))
      ⟨1, strL "sunset.jpg", strL "/d/sunset.jpg", [], 3, [], []⟩ = true ∧
    rowMatchesToks (tokenize (strL "sunset"))
      ⟨2, strL "sunset_beach.jpg", strL "/d/sunset_beach.jpg", [], 5, [], []⟩ = true ∧
    scoreRow (tokenize (strL "sunset"))
        ⟨1, strL "sunset.jpg", strL "/d/sunset.jpg", [], 3, [], []⟩
      = scoreRow (tokenize (strL "sunset"))
        ⟨2, strL "sunset_beach.jpg", strL "/d/sunset_beach.jpg", [], 5, [], []⟩ := by
  refine ⟨by decide, by decide, by decide, by decide⟩

/-- C7 amended: a record whose filename starts with the first query token
scores at least as high as any record whose filename and camera model only
contain (a subset of) the tokens it contains; results are ordered by score
and then recency, so two records with equal scores — as happens for
`sunset.jpg` and `sunset_beach.jpg`, which both get the prefix bonus — are
ordered by recency, the more recently uploaded one first. -/
theorem claimC7_amended (toks : List GoStr) (t0 : GoStr) (A B : FileRow)
    (ht : toks.head? = some t0)
    (hpA : startsCI A.filename t0 = true)
    (hf : ∀ t ∈ toks, containsCI B.filename t = true →
      containsCI A.filename t = true)
    (hc : ∀ t ∈ toks, containsCI B.camera t = true →
      containsCI A.camera t = true) :
    scoreRow toks B ≤ scoreRow toks A ∧
    (∀ a b : FileRow, scoreRow toks a = scoreRow toks b →
      sortRanked (rankedBefore toks) [a, b]
        = (if b.uploadedAt ≤ a.uploadedAt then [a, b] else [b, a])) := by
  constructor
  · rcases toks with _ | ⟨t, ts⟩
    · cases ht
    · have ht0 : t = t0 := by simpa using ht
      subst ht0
      simp only [scoreRow]
      have h50 : ((t :: ts).map
            (fun tk => if containsCI B.filename tk then 50 else 0)).sum
          ≤ ((t :: ts).map
            (fun tk => if containsCI A.filename tk then 50 else 0)).sum := by
        apply List.sum_le_sum
        intro tk htm
        by_cases hb : containsCI B.filename tk = true
        · rw [if_pos hb, if_pos (hf tk htm hb)]
        · rw [if_neg hb]
          positivity
      have h20 : ((t :: ts).map
            (fun tk => if containsCI B.camera tk then 20 else 0)).sum
          ≤ ((t :: ts).map
            (fun tk => if containsCI A.camera tk then 20 else 0)).sum := by
        apply List.sum_le_sum
        intro tk htm
        by_cases hb : containsCI B.camera tk = true
        · rw [if_pos hb, if_pos (hc tk htm hb)]
        · rw [if_neg hb]
          positivity
      have hpref : (if startsCI B.filename t then 200 else 0)
          ≤ (if startsCI A.filename t then 200 else 0) := by
        rw [if_pos hpA]
        split <;> omega
      omega
  · intro a b hs
    have h1 : rankedBefore toks a b = decide (b.uploadedAt ≤ a.uploadedAt) := by
      simp [rankedBefore, hs]
    simp only [sortRanked, insertRanked, h1]
    by_cases hu : b.uploadedAt ≤ a.uploadedAt <;> simp [hu]

/-- Witness for C7 (amended) at the sunset rows. -/
theorem claimC7_witness :
    scoreRow [strL "sunset"]
        ⟨2, strL "sunset_beach.jpg", strL "/d/sunset_beach.jpg", [], 5, [], []⟩
      ≤ scoreRow [strL "sunset"]
        ⟨1, strL "sunset.jpg", strL "/d/sunset.jpg", [], 3, [], []⟩ :=
  (claimC7_amended [strL "sunset"] (strL "sunset")
    ⟨1, strL "sunset.jpg", strL "/d/sunset.jpg", [], 3, [], []⟩
    ⟨2, strL "sunset_beach.jpg", strL "/d/sunset_beach.jpg", [], 5, [], []⟩
    (by decide) (by decide) (by decide) (by decide)).1

/-- C5: in regex mode a pattern longer than the configured maximum (200
characters in the code) is rejected with BadRequest and the response is
independent of the table — no row is scanned; a nonempty syntactically
invalid pattern is likewise rejected with BadRequest. -/
theorem claimC5_regexRejects (compile : GoStr → Option (GoStr → Bool))
    (table : List MediaRec) (pattern : GoStr) (offset limit : Nat) :
    (200 < pattern.length →
      handleRegexSearch compile table pattern offset limit = ⟨400, []⟩) ∧
    (pattern ≠ [] → compile pattern = none →
      handleRegexSearch compile table pattern offset limit = ⟨400, []⟩) := by
  constructor
  · intro hl
    have hne : ¬ pattern = [] := by
      intro e
      rw [e] at hl
      simp at hl
    simp [handleRegexSearch, hne, hl]
  · intro hne hcomp
    by_cases hl : 200 < pattern.length
    · simp [handleRegexSearch, hne, hl]
    · simp [handleRegexSearch, hne, hl, hcomp]

/-- Witness for C5: a 201-character pattern is rejected no matter the
table or compiler, and an invalid two-character pattern is rejected. -/
theorem claimC5_witness :
    handleRegexSearch (fun _ => none) [] (List.replicate 201 'a') 0 100
        = ⟨400, []⟩ ∧
      handleRegexSearch (fun _ => none) [] (strL "ab") 0 100 = ⟨400, []⟩ :=
  ⟨(claimC5_regexRejects (fun _ => none) [] (List.replicate 201 'a') 0 100).1
      (by rw [List.length_replicate]; omega),
    (claimC5_regexRejects (fun _ => none) [] (strL "ab") 0 100).2
      (by decide) rfl⟩

theorem scanRows_eq (m : MediaRec → Bool) (stop : Nat) :
    ∀ (l acc : List MediaRec), acc.length < stop →
    scanRows m stop acc l
      = acc.reverse ++ (l.filter m).take (stop - acc.length) := by
  intro l
  induction l with
  | nil => intro acc hacc; simp [scanRows]
  | cons r rs ih =>
    intro acc hacc
    by_cases hm : m r = true
    · by_cases hbreak : stop ≤ acc.length + 1
      · have hval : scanRows m stop (acc) (r :: rs) = (r :: acc).reverse := by
          simp only [scanRows, hm, if_true]
          rw [if_pos (by simpa using hbreak)]
        rw [hval]
        have h1 : stop - acc.length = 1 := by omega
        simp [List.filter_cons, hm, h1]
      · have hval : scanRows m stop acc (r :: rs)
            = scanRows m stop (r :: acc) rs := by
          simp only [scanRows, hm, if_true]
          rw [if_neg (by simpa using hbreak)]
        rw [hval, ih (r :: acc) (by simp; omega)]
        have h1 : stop - acc.length = (stop - (acc.length + 1)) + 1 := by omega
        simp only [List.filter_cons, hm, if_true, List.length_cons, h1,
          List.take_succ_cons, List.reverse_cons]
        simp
    · have hval : scanRows m stop acc (r :: rs) = scanRows m stop acc rs := by
        simp only [scanRows]
        rw [if_neg (by simpa using hm)]
      rw [hval, ih acc hacc]
      simp [List.filter_cons, hm]

theorem sliceGo_eq (found : List MediaRec) (offset limit : Nat) :
    sliceGo found offset limit = (found.drop offset).take limit := by
  simp only [sliceGo]
  by_cases ho : 0 < offset
  · rw [if_pos ho]
    by_cases hlen : found.length ≤ offset
    · rw [if_pos hlen]
      have h2 : found.drop offset = [] := List.drop_eq_nil_of_le hlen
      simp [List.drop_length, h2]
    · rw [if_neg hlen]
      by_cases hst : found.length < offset + limit
      · rw [if_pos hst]
        have hlen2 : (found.drop offset).length = found.length - offset :=
          List.length_drop _ _
        rw [List.take_of_length_le (by omega), List.take_of_length_le (by omega)]
      · rw [if_neg hst]
        have h3 : offset + limit - offset = limit := by omega
        rw [h3]
  · rw [if_neg ho]
    have ho0 : offset = 0 := by omega
    subst ho0
    simp only [List.drop_zero, Nat.zero_add, Nat.sub_zero]
    by_cases hst : found.length < limit
    · rw [if_pos hst]
      rw [List.take_of_length_le (by omega), List.take_of_length_le (by omega)]
    · rw [if_neg hst]

/-- C6: for every valid regex search, only the 5000 most-recent rows are
considered (the table is in recency order), the regex is tested against
filename, exif datetime and camera model (`matchRow`), and offset and
limit are applied to the matched subset of the scanned rows. -/
theorem claimC6_regexScan (compile : GoStr → Option (GoStr → Bool))
    (table : List MediaRec) (pattern : GoStr) (offset limit : Nat)
    (re : GoStr → Bool)
    (hne : pattern ≠ []) (hlen : pattern.length ≤ 200)
    (hcomp : compile pattern = some re) :
    handleRegexSearch compile table pattern offset limit
      = ⟨200, (((table.take 5000).filter (matchRow re)).drop offset).take limit⟩ := by
  have hl2 : ¬ 200 < pattern.length := by omega
  simp only [handleRegexSearch, hne, hl2, hcomp, if_neg, if_false]
  rcases Nat.eq_zero_or_pos (offset + limit) with h0 | hpos
  · have hoff : offset = 0 := by omega
    have hlim : limit = 0 := by omega
    subst hoff hlim
    rw [sliceGo_eq]
    simp
  · rw [scanRows_eq (matchRow re) (offset + limit) _ [] (by simpa using hpos)]
    rw [sliceGo_eq]
    simp only [List.reverse_nil, List.nil_append, List.length_nil, Nat.sub_zero]
    rw [List.drop_take]
    have h3 : offset + limit - offset = limit := by omega
    rw [h3, List.take_take]
    simp

/-- Witness for C6 on an empty table with a trivial regex. -/
theorem claimC6_witness :
    handleRegexSearch (fun _ => some (fun _ => true)) [] (strL "ab") 0 100
      = ⟨200, []⟩ := by
  have := claimC6_regexScan (fun _ => some (fun _ => true)) [] (strL "ab")
    0 100 (fun _ => true) (by decide) (by decide) rfl
  simpa using this

theorem parseRange_suffix (N : Nat) (size : Int) (hrep : N ≤ 2 ^ 63 - 1) :
    parseRange (strL "bytes=-" ++ natToDec N) size
      = .ok (size - (if (N : Int) > size then size else (N : Int)), size - 1) := by
  have hform : strL "bytes=-" ++ natToDec N
      = strL "bytes=" ++ ('-' :: natToDec N) := rfl
  have hpre : hasPre (strL "bytes=-" ++ natToDec N) (strL "bytes=") = true := by
    rw [hform]; exact hasPre_append _ _
  have hsplit : splitCh '-'
      (trimPre (strL "bytes=-" ++ natToDec N) (strL "bytes="))
      = [[], natToDec N] := by
    rw [hform, trimPre_append, splitCh_cons_self,
      splitCh_not_mem (natToDec_no_dash N)]
  simp only [parseRange, hpre, hsplit, not_true, if_false,
    parseIntDec_natToDec hrep]
  rfl

/-- C9 amended: for every suffix range `bytes=-N` with `N` at least the
file size and representable in a signed 64-bit integer (Go's `ParseInt`
rejects larger decimals with a range error), the streamer clamps the
suffix to the whole file and serves bytes `0..size-1` with status 206. -/
theorem claimC9_amended (content : List Nat) (N : Nat)
    (hge : content.length ≤ N) (hrep : N ≤ 2 ^ 63 - 1) :
    fileRange content (strL "bytes=-" ++ natToDec N)
      = ⟨206, some (contentRangeStr 0 ((content.length : Int) - 1)
          (content.length : Int)), content⟩ := by
  have hsl : (if (N : Int) > (content.length : Int)
      then (content.length : Int) else (N : Int)) = (content.length : Int) := by
    by_cases h : (N : Int) > (content.length : Int)
    · rw [if_pos h]
    · rw [if_neg h]
      have h2 : (content.length : Int) ≤ (N : Int) := by exact_mod_cast hge
      omega
  have hpr2 : parseRange (strL "bytes=-" ++ natToDec N) (content.length : Int)
      = .ok (0, (content.length : Int) - 1) := by
    rw [parseRange_suffix N (content.length : Int) hrep, hsl]
    norm_num
  have hne : ¬ (strL "bytes=-" ++ natToDec N) = [] := by simp [strL]
  simp only [fileRange, if_neg hne, hpr2]
  have hbody : (content.drop (0 : Int).toNat).take
      (((content.length : Int) - 1 - 0 + 1).toNat) = content := by
    have h1 : ((content.length : Int) - 1 - 0 + 1) = (content.length : Int) := by
      ring
    rw [h1]
    simp
  rw [hbody]

/-- Witness for C9 (amended): `bytes=-7` on a 3-byte file serves the whole
file with status 206 and `Content-Range: bytes 0-2/3`. -/
theorem claimC9_witness :
    fileRange [5, 6, 7] (strL "bytes=-" ++ natToDec 7)
      = ⟨206, some (strL "bytes 0-2/3"), [5, 6, 7]⟩ := by
  have h := claimC9_amended [5, 6, 7] 7 (by norm_num) (by norm_num)
  rw [h]
  have h2 : contentRangeStr 0 (([5, 6, 7] : List Nat).length - 1 : Int)
      (([5, 6, 7] : List Nat).length : Int) = strL "bytes 0-2/3" := by
    simp [contentRangeStr, intToDec, natToDec, natToDecAux_lt]
    decide
  rw [h2]

/-- C9 counterexample: the suffix length `2^63 = 9223372036854775808`
exceeds `int64`, so Go's `ParseInt` fails and the request is rejected with
416 even though `N` is at least the (5-byte) file size — the claim's
clamping does not hold for every `N ≥ size`. -/
theorem claimC9_counterexample :
    parseRange (strL "bytes=-9223372036854775808") 5 = .error () ∧
      (5 : Nat) ≤ 9223372036854775808 ∧
      fileRange [0, 0, 0, 0, 0] (strL "bytes=-9223372036854775808")
        = ⟨416, none, []⟩ :=
  ⟨by rfl, by omega, by rfl⟩

/-- C4: on a 1000-byte file, `bytes=0-99` yields exactly 100 bytes with
status 206 and `Content-Range: bytes 0-99/1000`; `bytes=-50` yields
exactly the last 50 bytes; any range header `parseRange` rejects —
malformed or out of bounds — produces status 416, and every well-formed
`bytes=s-e` with `s > e` or `e ≥ 1000` is rejected. -/
theorem claimC4_rangeStreaming (content : List Nat)
    (hlen : content.length = 1000) :
    (fileRange content (strL "bytes=0-99")
        = ⟨206, some (strL "bytes 0-99/1000"), content.take 100⟩ ∧
      (content.take 100).length = 100) ∧
    (fileRange content (strL "bytes=-50")
        = ⟨206, some (strL "bytes 950-999/1000"), content.drop 950⟩ ∧
      (content.drop 950).length = 50) ∧
    (∀ h : GoStr, h ≠ [] → parseRange h 1000 = .error () →
      fileRange content h = ⟨416, none, []⟩) ∧
    (∀ s e : Nat, s ≤ 2 ^ 63 - 1 → e ≤ 2 ^ 63 - 1 → (e < s ∨ 1000 ≤ e) →
      parseRange (strL "bytes=" ++ natToDec s ++ '-' :: natToDec e) 1000
        = .error ()) := by
  have hc : (content.length : Int) = (1000 : Int) := by exact_mod_cast hlen
  refine ⟨⟨?_, ?_⟩, ⟨?_, ?_⟩, ?_, ?_⟩
  · have hp : parseRange (strL "bytes=0-99") (1000 : Int) = .ok (0, 99) := by rfl
    have hne : ¬ (strL "bytes=0-99") = [] := by simp [strL]
    simp only [fileRange, hc, if_neg hne, hp]
    have hcr : contentRangeStr 0 99 1000 = strL "bytes 0-99/1000" := by
      simp [contentRangeStr, intToDec, natToDec, natToDecAux_lt, natToDecAux_ge]
      decide
    rw [hcr]
    have h100 : Int.toNat 100 = 100 := by decide
    norm_num [h100]
  · rw [List.length_take, hlen]
    omega
  · have hp : parseRange (strL "bytes=-50") (1000 : Int) = .ok (950, 999) := by
      rfl
    have hne : ¬ (strL "bytes=-50") = [] := by simp [strL]
    simp only [fileRange, hc, if_neg hne, hp]
    have hcr : contentRangeStr 950 999 1000 = strL "bytes 950-999/1000" := by
      simp [contentRangeStr, intToDec, natToDec, natToDecAux_lt, natToDecAux_ge]
      decide
    rw [hcr]
    have hbody : (content.drop (950 : Int).toNat).take
        ((999 - 950 + 1 : Int)).toNat = content.drop 950 := by
      have h1 : ((999 : Int) - 950 + 1) = (50 : Int) := by norm_num
      rw [h1]
      refine List.take_of_length_le ?_
      rw [List.length_drop, hlen]
      have h50 : Int.toNat 50 = 50 := by decide
      have h950 : Int.toNat 950 = 950 := by decide
      omega
    rw [hbody]
  · rw [List.length_drop, hlen]
  · intro h hne herr
    simp only [fileRange, hc, if_neg hne, herr]
  · intro s e hs he hcond
    have hform : strL "bytes=" ++ natToDec s ++ '-' :: natToDec e
        = strL "bytes=" ++ (natToDec s ++ '-' :: natToDec e) := by
      simp
    have hpre : hasPre (strL "bytes=" ++ natToDec s ++ '-' :: natToDec e)
        (strL "bytes=") = true := by
      rw [hform]; exact hasPre_append _ _
    have hsplit : splitCh '-'
        (trimPre (strL "bytes=" ++ natToDec s ++ '-' :: natToDec e)
          (strL "bytes="))
        = [natToDec s, natToDec e] := by
      rw [hform, trimPre_append, splitCh_append (natToDec_no_dash s),
        splitCh_not_mem (natToDec_no_dash e)]
    have hbound : (s : Int) > (e : Int) ∨ (e : Int) ≥ (1000 : Int) := by
      rcases hcond with hcond | hcond
      · left; exact_mod_cast hcond
      · right; exact_mod_cast hcond
    simp only [parseRange, hpre, hsplit, not_true, if_false,
      if_neg (natToDec_ne_nil s), if_neg (natToDec_ne_nil e),
      parseIntDec_natToDec hs, parseIntDec_natToDec he]
    rw [if_pos hbound]

/-- Witness for C4 on a concrete 1000-byte file. -/
theorem claimC4_witness :
    fileRange (List.replicate 1000 3) (strL "bytes=0-99")
      = ⟨206, some (strL "bytes 0-99/1000"), (List.replicate 1000 3).take 100⟩ :=
  ((claimC4_rangeStreaming (List.replicate 1000 3)
    (by rw [List.length_replicate])).1).1

/-- C8: if the backup destination already exists while the source is
present, re-running the backup worker updates the record — setting
`backedUp`, `backupPath` and `backupAt` together, with the fresh timestamp
— without copying any bytes (disk unchanged, copy flag false); and in
every run the media table is either untouched or receives exactly that
joint update, so `backupPath`/`backupAt` are never set outside a
successful or skipped-as-successful backup. -/
theorem claimC8_backupConverges (dataDir backupDir : GoStr) (copyOk : Bool)
    (disk : Disk) (media : List MediaRec) (jobPath : GoStr) (jobId : Nat)
    (now : GoStr) :
    ((diskGet disk jobPath).isSome = true →
      diskHas disk (goJoin backupDir (goRel dataDir jobPath)) = true →
      processBackup dataDir backupDir copyOk disk media jobPath jobId now
        = (disk, updateBackup media jobId
            (goJoin backupDir (goRel dataDir jobPath)) now, false)) ∧
    ((processBackup dataDir backupDir copyOk disk media jobPath jobId now).2.1
        = media ∨
      (processBackup dataDir backupDir copyOk disk media jobPath jobId now).2.1
        = updateBackup media jobId
            (goJoin backupDir (goRel dataDir jobPath)) now) := by
  constructor
  · intro hsrc hdest
    obtain ⟨bytes, hb⟩ := Option.isSome_iff_exists.mp hsrc
    simp only [processBackup, hb, hdest, if_true]
  · rcases hget : diskGet disk jobPath with _ | bytes
    · simp [processBackup, hget]
    · simp only [processBackup, hget]
      by_cases hd : diskHas disk (goJoin backupDir (goRel dataDir jobPath)) = true
      · simp [hd]
      · have hd' : diskHas disk (goJoin backupDir (goRel dataDir jobPath))
            = false := by simpa using hd
        rcases copyOk with _ | _
        · simp [hd']
        · simp [hd']

/-- Witness for C8: destination already on disk, record not yet marked —
the run updates the record and copies nothing. -/
theorem claimC8_witness :
    processBackup (strL "/data") (strL "/b") true
        [(strL "/data/devices/d/a.jpg", [1]), (strL "/b/devices/d/a.jpg", [1])]
        [⟨1, strL "a.jpg", strL "/data/devices/d/a.jpg", strL "h", strL "d", 0,
          false, [], none, [], []⟩]
        (strL "/data/devices/d/a.jpg") 1 (strL "2026-10-11")
      = ([(strL "/data/devices/d/a.jpg", [1]), (strL "/b/devices/d/a.jpg", [1])],
          updateBackup [⟨1, strL "a.jpg", strL "/data/devices/d/a.jpg", strL "h",
            strL "d", 0, false, [], none, [], []⟩] 1
            (goJoin (strL "/b")
              (goRel (strL "/data") (strL "/data/devices/d/a.jpg")))
            (strL "2026-10-11"), false) :=
  (claimC8_backupConverges (strL "/data") (strL "/b") true
    [(strL "/data/devices/d/a.jpg", [1]), (strL "/b/devices/d/a.jpg", [1])]
    [⟨1, strL "a.jpg", strL "/data/devices/d/a.jpg", strL "h", strL "d", 0,
      false, [], none, [], []⟩]
    (strL "/data/devices/d/a.jpg") 1 (strL "2026-10-11")).1
    (by decide) (by decide)

/-! Helper lemmas: the modelled filesystem. -/

theorem diskDel_put (d : Disk) (p : GoStr) (b : List Nat) :
    diskDel (diskPut d p b) p = diskDel d p := by
  simp [diskPut, diskDel, List.filter_filter]

theorem diskDel_not_has {d : Disk} {p : GoStr} (h : diskHas d p = false) :
    diskDel d p = d := by
  simp only [diskHas, List.any_eq_false] at h
  refine List.filter_eq_self.mpr ?_
  intro e he
  have := h e he
  simpa using this

theorem diskHas_put_false {d : Disk} {p q : GoStr} {b : List Nat}
    (h : diskHas (diskPut d p b) q = false) (hq : diskHas d p = false) :
    diskHas d q = false := by
  rw [diskPut, diskDel_not_has hq] at h
  simp only [diskHas, List.any_cons, Bool.or_eq_false_iff] at h
  simpa [diskHas] using h.2

theorem deviceDirOf_ne_nil (dataDir dev : GoStr) :
    deviceDirOf dataDir dev ≠ [] := by
  refine goJoin_ne_nil (Or.inl ?_)
  exact goJoin_ne_nil (Or.inr (by decide))

theorem finalPath_ne_nil (dataDir dev n : GoStr) :
    goJoin (deviceDirOf dataDir dev) n ≠ [] :=
  goJoin_ne_nil (Or.inl (deviceDirOf_ne_nil dataDir dev))

theorem syncUpload_skip (env : SyncEnv) (st : SyncSt) (n dv : GoStr)
    (B : List Nat) (t : Nat) (r : MediaRec)
    (hfind : st.media.find? (fun x => x.sha = env.hash B) = some r)
    (hne : ¬ r.filepathS = [])
    (hTmp : diskHas st.disk (tmpPathOf env.dataDir dv t n) = false) :
    syncUpload env st n B dv t = (st, ⟨200, true, r.filepathS, none⟩) := by
  obtain ⟨m, i, dk⟩ := st
  simp only [syncUpload, hfind, if_neg hne] at *
  rw [diskDel_put, diskDel_not_has (by simpa using hTmp)]

theorem syncUpload_fresh (env : SyncEnv) (st : SyncSt) (n dv : GoStr)
    (B : List Nat) (t : Nat)
    (hfind : st.media.find? (fun x => x.sha = env.hash B) = none)
    (hTmp : diskHas st.disk (tmpPathOf env.dataDir dv t n) = false)
    (hFree : diskHas (diskPut st.disk (tmpPathOf env.dataDir dv t n) B)
      (goJoin (deviceDirOf env.dataDir dv) n) = false) :
    syncUpload env st n B dv t
      = ({ media := st.media ++ [syncRecOf env st n dv B],
           nextId := st.nextId + 1,
           disk := diskPut st.disk (goJoin (deviceDirOf env.dataDir dv) n) B },
         ⟨200, false,
           relAPIPath env.dataDir (goJoin (deviceDirOf env.dataDir dv) n),
           some st.nextId⟩) := by
  have hchoose : chooseFinalPath (diskPut st.disk (tmpPathOf env.dataDir dv t n) B)
      (deviceDirOf env.dataDir dv) n = goJoin (deviceDirOf env.dataDir dv) n := by
    simp only [chooseFinalPath, chooseFPAux]
    rw [if_neg (by simp [hFree])]
  have hdel1 : diskDel (diskPut st.disk (tmpPathOf env.dataDir dv t n) B)
      (tmpPathOf env.dataDir dv t n) = st.disk := by
    rw [diskDel_put, diskDel_not_has hTmp]
  simp only [syncUpload, hfind, hchoose, hdel1, syncRecOf]

/-- C2: ingesting the same content bytes `B` twice through the device-sync
upload — under any two declared filenames, device ids and timestamps —
stores exactly one file and inserts exactly one metadata record; the
second ingestion leaves the media table, the id counter and the disk
unchanged (its temporary file is deleted) and responds `skipped = true`
with the stored path of the first upload.  The hypotheses state the
environment: no existing record carries the hash of `B`, the two
timestamped temporary paths are fresh, and the first declared final path
is free. -/
theorem claimC2_dedup (env : SyncEnv) (st0 : SyncSt) (n1 n2 d1 d2 : GoStr)
    (B : List Nat) (t1 t2 : Nat)
    (hNoDup : ∀ r ∈ st0.media, ¬ r.sha = env.hash B)
    (hTmp1 : diskHas st0.disk (tmpPathOf env.dataDir d1 t1 n1) = false)
    (hFree1 : diskHas (diskPut st0.disk (tmpPathOf env.dataDir d1 t1 n1) B)
      (goJoin (deviceDirOf env.dataDir d1) n1) = false)
    (hTmp2 : diskHas (syncUpload env st0 n1 B d1 t1).1.disk
      (tmpPathOf env.dataDir d2 t2 n2) = false) :
    (syncUpload env st0 n1 B d1 t1).1.media
        = st0.media ++ [syncRecOf env st0 n1 d1 B] ∧
      (syncRecOf env st0 n1 d1 B).sha = env.hash B ∧
      (syncRecOf env st0 n1 d1 B).filepathS
        = goJoin (deviceDirOf env.dataDir d1) n1 ∧
      (syncUpload env st0 n1 B d1 t1).1.disk
        = diskPut st0.disk (syncRecOf env st0 n1 d1 B).filepathS B ∧
      diskHas st0.disk (syncRecOf env st0 n1 d1 B).filepathS = false ∧
      (syncUpload env st0 n1 B d1 t1).2.skipped = false ∧
      (syncUpload env (syncUpload env st0 n1 B d1 t1).1 n2 B d2 t2).1
        = (syncUpload env st0 n1 B d1 t1).1 ∧
      (syncUpload env (syncUpload env st0 n1 B d1 t1).1 n2 B d2 t2).2.skipped
        = true ∧
      (syncUpload env (syncUpload env st0 n1 B d1 t1).1 n2 B d2 t2).2.path
        = (syncRecOf env st0 n1 d1 B).filepathS := by
  have hfind0 : st0.media.find? (fun x => x.sha = env.hash B) = none := by
    refine List.find?_eq_none.mpr ?_
    intro x hx
    simpa using hNoDup x hx
  have hk1 := syncUpload_fresh env st0 n1 d1 B t1 hfind0 hTmp1 hFree1
  have hrecpath : (syncRecOf env st0 n1 d1 B).filepathS
      = goJoin (deviceDirOf env.dataDir d1) n1 := by
    simp [syncRecOf]
  have hrecsha : (syncRecOf env st0 n1 d1 B).sha = env.hash B := by
    simp [syncRecOf]
  have hne : ¬ (syncRecOf env st0 n1 d1 B).filepathS = [] := by
    rw [hrecpath]
    exact finalPath_ne_nil env.dataDir d1 n1
  have hfind1 : (st0.media ++ [syncRecOf env st0 n1 d1 B]).find?
      (fun x => x.sha = env.hash B) = some (syncRecOf env st0 n1 d1 B) := by
    rw [List.find?_append, hfind0]
    simp [hrecsha]
  have hTmp2' : diskHas
      (diskPut st0.disk (goJoin (deviceDirOf env.dataDir d1) n1) B)
      (tmpPathOf env.dataDir d2 t2 n2) = false := by
    rw [hk1] at hTmp2
    simpa using hTmp2
  have hk2 := syncUpload_skip env
    ({ media := st0.media ++ [syncRecOf env st0 n1 d1 B],
       nextId := st0.nextId + 1,
       disk := diskPut st0.disk (goJoin (deviceDirOf env.dataDir d1) n1) B })
    n2 d2 B t2 (syncRecOf env st0 n1 d1 B) (by simpa using hfind1) hne
    (by simpa using hTmp2')
  have hfresh : diskHas st0.disk (syncRecOf env st0 n1 d1 B).filepathS
      = false := by
    rw [hrecpath]
    exact diskHas_put_false hFree1 hTmp1
  refine ⟨?_, hrecsha, hrecpath, ?_, hfresh, ?_, ?_, ?_, ?_⟩
  · rw [hk1]
  · rw [hk1, hrecpath]
  · rw [hk1]
  · rw [hk1, hk2]
  · rw [hk1, hk2]
  · rw [hk1, hk2]

/-- Witness for C2: uploading the byte `7` twice (as `a.jpg` from device
`d`, then as `b.jpg` from device `e`) makes the second upload skip and
return the first stored path. -/
theorem claimC2_witness :
    (syncUpload ⟨strL "/data", fun _ => strL "HH", fun _ => ([], [])⟩
        ((syncUpload ⟨strL "/data", fun _ => strL "HH", fun _ => ([], [])⟩
          ⟨[], 1, []⟩ (strL "a.jpg") [7] (strL "d") 1).1)
        (strL "b.jpg") [7] (strL "e") 2).2.skipped = true ∧
    (syncUpload ⟨strL "/data", fun _ => strL "HH", fun _ => ([], [])⟩
        ((syncUpload ⟨strL "/data", fun _ => strL "HH", fun _ => ([], [])⟩
          ⟨[], 1, []⟩ (strL "a.jpg") [7] (strL "d") 1).1)
        (strL "b.jpg") [7] (strL "e") 2).2.path
      = (syncRecOf ⟨strL "/data", fun _ => strL "HH", fun _ => ([], [])⟩
          ⟨[], 1, []⟩ (strL "a.jpg") (strL "d") [7]).filepathS := by
  have hd1 : natToDec 1 = ['1'] := by
    rw [natToDec, natToDecAux_lt (by norm_num)]
    decide
  have hd2 : natToDec 2 = ['2'] := by
    rw [natToDec, natToDecAux_lt (by norm_num)]
    decide
  have h1 : diskHas ([] : Disk)
      (tmpPathOf (strL "/data") (strL "d") 1 (strL "a.jpg")) = false := rfl
  have h2 : diskHas
      (diskPut ([] : Disk)
        (tmpPathOf (strL "/data") (strL "d") 1 (strL "a.jpg")) [7])
      (goJoin (deviceDirOf (strL "/data") (strL "d")) (strL "a.jpg"))
      = false := by
    simp only [tmpPathOf, tmpNameOf, hd1]
    decide
  have hfr := syncUpload_fresh
    ⟨strL "/data", fun _ => strL "HH", fun _ => ([], [])⟩ ⟨[], 1, []⟩
    (strL "a.jpg") (strL "d") [7] 1 (by simp) h1 h2
  have h3 : diskHas (syncUpload
      ⟨strL "/data", fun _ => strL "HH", fun _ => ([], [])⟩ ⟨[], 1, []⟩
      (strL "a.jpg") [7] (strL "d") 1).1.disk
      (tmpPathOf (strL "/data") (strL "e") 2 (strL "b.jpg")) = false := by
    rw [hfr]
    simp only [tmpPathOf, tmpNameOf, hd2]
    decide
  have h := claimC2_dedup
    ⟨strL "/data", fun _ => strL "HH", fun _ => ([], [])⟩ ⟨[], 1, []⟩
    (strL "a.jpg") (strL "b.jpg") (strL "d") (strL "e") [7] 1 2
    (by simp) h1 h2 h3
  exact ⟨h.2.2.2.2.2.2.2.1, h.2.2.2.2.2.2.2.2⟩
